import Mathlib

/-!
Shallow embedding of `src/streamlit_app.py` (a Streamlit + Selenium web
scraper).  Python strings are modelled as `List Char`; the parsed HTML
document (the BeautifulSoup tree) is modelled by the mutual inductives
`Node` / `NodeList`.  Effectful steps (navigation, the fixed sleep, reading
`driver.page_source`, exceptions) are modelled by the `FetchOutcome` sum:
either the rendered page source together with its parse, or an exception
message.  `st.cache_resource` is modelled as explicit memoisation state
threaded through the driver provider.

Modelling choices: `str.strip()` strips the ASCII whitespace characters
space, tab, newline, carriage return, vertical tab and form feed;
`str.splitlines()` splits on the Python line boundary characters
(newline, carriage return, CRLF, vertical tab, form feed, the file / group /
record separators, NEL, LINE SEPARATOR and PARAGRAPH SEPARATOR).
-/

/-- Whitespace characters stripped by Python's `str.strip()` (ASCII subset). -/
def isPySpace (c : Char) : Bool :=
  c = ' ' || c = '\t' || c = '\n' || c = '\r' || c = '\x0b' || c = '\x0c'

/-- Line boundary characters recognised by Python's `str.splitlines()`. -/
def isBreak (c : Char) : Bool :=
  c = '\n' || c = '\r' || c = '\x0b' || c = '\x0c' || c = '\x1c' ||
  c = '\x1d' || c = '\x1e' || c = '\x85' || c = '\u2028' || c = '\u2029'

/-- Python `str.lstrip()`. -/
def lstrip (s : List Char) : List Char := s.dropWhile isPySpace

/-- Python `str.rstrip()`. -/
def rstrip (s : List Char) : List Char := (s.reverse.dropWhile isPySpace).reverse

/-- Python `str.strip()`. -/
def strip (s : List Char) : List Char := rstrip (lstrip s)

/-- Worker for `splitlines`: `acc` holds the current (reversed) line. -/
def splitlinesGo (acc : List Char) : List Char → List (List Char)
  | [] => [acc.reverse]
  | c :: s =>
    if isBreak c then
      match s with
      | [] => [acc.reverse]
      | d :: s' =>
        if c = '\r' && d = '\n' then
          acc.reverse :: (match s' with
            | [] => []
            | e :: s'' => splitlinesGo [] (e :: s''))
        else acc.reverse :: splitlinesGo [] (d :: s')
    else splitlinesGo (c :: acc) s

/-- Python `str.splitlines()` (no trailing empty line after a final break). -/
def splitlines : List Char → List (List Char)
  | [] => []
  | c :: s => splitlinesGo [] (c :: s)

/-- Python `str.split("  ")`: split on non-overlapping occurrences of two
consecutive spaces, scanning left to right. -/
def splitTwoSpace : List Char → List (List Char)
  | [] => [[]]
  | [c] => [[c]]
  | c :: d :: r =>
    if c = ' ' && d = ' ' then [] :: splitTwoSpace r
    else
      match splitTwoSpace (d :: r) with
      | [] => [[c]]
      | h :: t => (c :: h) :: t

/-- Python `'\n'.join(...)`. -/
def joinNL : List (List Char) → List Char
  | [] => []
  | [f] => f
  | f :: fs => f ++ '\n' :: joinNL fs

/-- The chunk list built at lines 59-61 of `streamlit_app.py`:
stripped lines, each split on `"  "`, each phrase stripped, empties dropped. -/
def cleanChunks (t : List Char) : List (List Char) :=
  ((((splitlines t).map strip).flatMap splitTwoSpace).map strip).filter
    (fun f => !f.isEmpty)

/-- `clean_text` as computed by the code (lines 59-61):
`'\n'.join(chunk for chunk in chunks if chunk)`. -/
def clean_code (t : List Char) : List Char := joinNL (cleanChunks t)

/-- The cleaning procedure exactly as the specification words it: split into
lines, split each line on two consecutive spaces, trim each resulting
fragment, discard empty fragments, join survivors with newlines.  (The spec
does not mention the per-line pre-strip the code performs.) -/
def cleanChunksSpec (t : List Char) : List (List Char) :=
  (((splitlines t).flatMap splitTwoSpace).map strip).filter (fun f => !f.isEmpty)

/-- Specification-side clean text. -/
def clean_spec (t : List Char) : List Char := joinNL (cleanChunksSpec t)

mutual
/-- A node of the parsed markup tree (BeautifulSoup element or text node). -/
inductive Node where
  | text : List Char → Node
  | elem : String → NodeList → Node

/-- A list of sibling nodes. -/
inductive NodeList where
  | nil : NodeList
  | cons : Node → NodeList → NodeList
end

/-- BeautifulSoup `get_text()` on a single node. -/
def getText : Node → List Char
  | .text s => s
  | .elem _ cs => getTextL cs
where
  /-- BeautifulSoup `get_text()` over a sibling list. -/
  getTextL : NodeList → List Char
  | .nil => []
  | .cons (.text s) ns => s ++ getTextL ns
  | .cons (.elem _ cs) ns => getTextL cs ++ getTextL ns

/-- Tags removed at lines 52-53: `soup(["script", "style"])`. -/
def isScriptStyle (tag : String) : Bool := tag == "script" || tag == "style"

/-- Effect of `for script in soup(["script", "style"]): script.decompose()`:
every script/style subtree is removed from the tree. -/
def stripScriptsL : NodeList → NodeList
  | .nil => .nil
  | .cons (.text s) ns => .cons (.text s) (stripScriptsL ns)
  | .cons (.elem t cs) ns =>
    if isScriptStyle t then stripScriptsL ns
    else .cons (.elem t (stripScriptsL cs)) (stripScriptsL ns)

/-- BeautifulSoup `soup.find('title')`: the first `<title>` element in
depth-first document order, if any. -/
def findTitleL : NodeList → Option Node
  | .nil => none
  | .cons (.text _) ns => findTitleL ns
  | .cons (.elem t cs) ns =>
    if t == "title" then some (.elem t cs)
    else
      match findTitleL cs with
      | some x => some x
      | none => findTitleL ns

/-- All `<title>` elements in depth-first document order (claim-side notion
used to state what "the first title element" means). -/
def titlesL : NodeList → List Node
  | .nil => []
  | .cons (.text _) ns => titlesL ns
  | .cons (.elem t cs) ns =>
    (if t == "title" then [Node.elem t cs] else []) ++ titlesL cs ++ titlesL ns

/-- Text lying under some script or style subtree of the document. -/
def ssTextL : NodeList → List Char
  | .nil => []
  | .cons (.text _) ns => ssTextL ns
  | .cons (.elem t cs) ns =>
    (if isScriptStyle t then getText.getTextL cs else ssTextL cs) ++ ssTextL ns

/-- Outcome of the effectful part of a scrape: either the rendered page
source together with its BeautifulSoup parse, or an exception message. -/
inductive FetchOutcome where
  | ok (page_source : List Char) (dom : NodeList)
  | err (msg : List Char)

/-- The dictionary returned by `scrape_website`. -/
structure ScrapeResult where
  title : List Char
  raw_html : List Char
  clean_text : List Char
  status : List Char
deriving DecidableEq, Repr

/-- The `"No title found"` sentinel of line 49. -/
def noTitle : List Char := "No title found".toList

/-- `scrape_website` (lines 34-76): on success extract the title (trimmed
text of the first `<title>`, or the sentinel), keep the raw page source,
remove script/style subtrees, extract and clean the remaining text; on any
exception return empty fields and an `"error: ..."` status. -/
def scrape_website : FetchOutcome → ScrapeResult
  | .ok src dom =>
    { title := (match findTitleL dom with
        | some n => strip (getText n)
        | none => noTitle),
      raw_html := src,
      clean_text := clean_code (getText.getTextL (stripScriptsL dom)),
      status := "success".toList }
  | .err msg =>
    { title := [], raw_html := [], clean_text := [],
      status := "error: ".toList ++ msg }

/-- Outcome a `webdriver.Chrome(...)` construction attempt would have. -/
inductive DriverOutcome where
  | ok (h : Nat)
  | fail (msg : List Char)

/-- Body of `get_driver` (lines 24-32): return the driver on success; on an
exception show an error and return `None`. -/
def get_driver_body : DriverOutcome → Option Nat
  | .ok h => some h
  | .fail _ => none

/-- `get_driver` under `@st.cache_resource`: the cache stores the function's
return value (including `None`).  Given the cache state and the outcome a
fresh construction attempt would have, returns the value handed to the
caller, the new cache state, and whether a construction was attempted. -/
def get_driver_cached :
    Option (Option Nat) → DriverOutcome → Option Nat × Option (Option Nat) × Bool
  | some v, _ => (v, some v, false)
  | none, out => (get_driver_body out, some (get_driver_body out), true)

/-- Run a sequence of button-click driver requests, threading the
`st.cache_resource` state; yields each call's (result, attempted) pair and
the final cache state. -/
def run_calls :
    Option (Option Nat) → List DriverOutcome → List (Option Nat × Bool) × Option (Option Nat)
  | cache, [] => ([], cache)
  | cache, out :: rest =>
    let r := get_driver_cached cache out
    let rs := run_calls r.2.1 rest
    ((r.1, r.2.2) :: rs.1, rs.2)

/-- What the button handler (lines 85-139) does, abstracted to its
observable outcome. -/
inductive UIOutcome where
  | warnedEmptyUrl
  | driverFailed
  | rendered (r : ScrapeResult)
  | scrapeFailed (r : ScrapeResult)
deriving DecidableEq, Repr

/-- The `st.button("Scrape Website")` handler: an empty URL only warns;
otherwise obtain the (cached) driver, and if one exists run the scrape and
render it (or show the error status).  Returns the outcome, the new cache
state, and whether a driver construction was attempted. -/
def handle_click (url : List Char) (cache : Option (Option Nat))
    (out : DriverOutcome) (fetch : FetchOutcome) :
    UIOutcome × Option (Option Nat) × Bool :=
  if url = [] then (.warnedEmptyUrl, cache, false)
  else
    let d := get_driver_cached cache out
    match d.1 with
    | none => (.driverFailed, d.2.1, d.2.2)
    | some _ =>
      let r := scrape_website fetch
      if r.status = "success".toList then (.rendered r, d.2.1, d.2.2)
      else (.scrapeFailed r, d.2.1, d.2.2)

/-- Truncated display used by the result tabs:
`s[:limit] + ("..." if len(s) > limit else "")`. -/
def truncatedDisplay (limit : Nat) (s : List Char) : List Char :=
  s.take limit ++ (if limit < s.length then "...".toList else [])

/-- The clean-text panel (line 106): first 5000 characters plus ellipsis. -/
def display_clean (r : ScrapeResult) : List Char := truncatedDisplay 5000 r.clean_text

/-- The raw-HTML panel (line 115): first 3000 characters plus ellipsis. -/
def display_raw (r : ScrapeResult) : List Char := truncatedDisplay 3000 r.raw_html

/-- Boolean prefix test on character lists. -/
def leadsWith : List Char → List Char → Bool
  | [], _ => true
  | _ :: _, [] => false
  | a :: as, b :: bs => a = b && leadsWith as bs

/-- Boolean substring test on character lists. -/
def containsSub (needle : List Char) : List Char → Bool
  | [] => needle.isEmpty
  | c :: t => leadsWith needle (c :: t) || containsSub needle t

/-- Character list of a string literal. -/
def chars (s : String) : List Char := s.toList

/-- Page source of the end-to-end demo page of the specification. -/
def demoSrc : List Char :=
  chars "<html><head><title> Demo </title></head><body><script>x=1</script><p>Hello  World</p></body></html>"

/-- Parse tree of the demo page. -/
def demoDom : NodeList :=
  .cons (.elem "html"
    (.cons (.elem "head"
      (.cons (.elem "title" (.cons (.text (chars " Demo ")) .nil)) .nil))
    (.cons (.elem "body"
      (.cons (.elem "script" (.cons (.text (chars "x=1")) .nil))
      (.cons (.elem "p" (.cons (.text (chars "Hello  World")) .nil)) .nil)))
      .nil))) .nil

/-- Cleaned fragments of a single line: split on two consecutive spaces,
strip each phrase, drop the empty ones. -/
def lineChunks (l : List Char) : List (List Char) :=
  ((splitTwoSpace l).map strip).filter (fun f => !f.isEmpty)

/-! ## Helper lemmas -/

theorem leadsWith_append (p m : List Char) : leadsWith p (p ++ m) = true := by
  induction p with
  | nil => rfl
  | cons a as ih => simp [leadsWith, ih]

theorem run_calls_cached (v : Option Nat) (rest : List DriverOutcome) :
    run_calls (some v) rest = (rest.map (fun _ => (v, false)), some v) := by
  induction rest with
  | nil => rfl
  | cons o rest ih => simp [run_calls, get_driver_cached, ih]

/-! ## Claim theorems -/

/-- C4: on any exception during navigation or parsing, the pipeline
propagates nothing and returns a result whose title, raw markup and clean
text are all empty and whose status is the literal prefix `"error: "`
followed by the exception message. -/
theorem C4_error_result (msg : List Char) :
    (scrape_website (.err msg)).title = [] ∧
    (scrape_website (.err msg)).raw_html = [] ∧
    (scrape_website (.err msg)).clean_text = [] ∧
    (scrape_website (.err msg)).status = "error: ".toList ++ msg ∧
    leadsWith ("error: ".toList) (scrape_website (.err msg)).status = true := by
  refine ⟨rfl, rfl, rfl, rfl, ?_⟩
  exact leadsWith_append _ _

/-- C8: the clean-text panel shows the first 5000 characters of
`clean_text`, appending an ellipsis exactly when it exceeds 5000
characters (the full string when within the limit), and the raw-markup
panel does the same with limit 3000 on `raw_html`. -/
theorem C8_display_truncation (r : ScrapeResult) :
    (display_clean r =
      if r.clean_text.length ≤ 5000 then r.clean_text
      else r.clean_text.take 5000 ++ "...".toList) ∧
    (display_raw r =
      if r.raw_html.length ≤ 3000 then r.raw_html
      else r.raw_html.take 3000 ++ "...".toList) := by
  constructor <;>
  · simp only [display_clean, display_raw, truncatedDisplay]
    split
    · next h =>
      rw [if_neg (by omega)]
    · next h =>
      rw [if_pos (by omega), List.take_of_length_le (by omega), List.append_nil]

/-- C9: the `raw_html` field is the page source captured before script and
style removal — it equals the fetched source for every input, and on the
demo page the script body `x=1` still occurs in `raw_html` while it does
not occur in `clean_text`. -/
theorem C9_raw_html_frame :
    (∀ (src : List Char) (dom : NodeList),
      (scrape_website (.ok src dom)).raw_html = src) ∧
    containsSub (chars "x=1") demoSrc = true ∧
    (scrape_website (.ok demoSrc demoDom)).raw_html = demoSrc ∧
    containsSub (chars "x=1") (scrape_website (.ok demoSrc demoDom)).clean_text = false := by
  refine ⟨fun _ _ => rfl, by decide, rfl, by decide⟩

/-- C10: when the submitted URL is empty, the click handler only warns,
obtains no browser handle (no construction is attempted and the cache
state is unchanged) and attempts no scrape. -/
theorem C10_empty_url (cache : Option (Option Nat)) (out : DriverOutcome)
    (fetch : FetchOutcome) :
    handle_click [] cache out fetch = (.warnedEmptyUrl, cache, false) := by
  rfl

/-- C5 counterexample: after a failed first creation, a later request does
NOT re-attempt to obtain a handle.  The first call attempts and fails
(result `none`); the second call is answered from the cache without an
attempt (`false`) and still yields `none`, even though a fresh construction
attempt would have succeeded (`get_driver_body (.ok 7) = some 7`). -/
theorem C5_cached_failure_counterexample :
    (run_calls none [DriverOutcome.fail (chars "boom"), DriverOutcome.ok 7]).1 =
      [(none, true), (none, false)] ∧
    get_driver_body (DriverOutcome.ok 7) = some 7 := by
  exact ⟨rfl, rfl⟩

/-- C5 (amended): if browser-handle creation fails, the failure is reported
to the caller and no handle is yielded (the first call attempts creation and
returns `none`); but because `st.cache_resource` caches the returned `None`,
every later request in the same process receives the cached failed outcome
without re-attempting creation. -/
theorem C5_amended_cached_failure (msg : List Char) (rest : List DriverOutcome) :
    (run_calls none (DriverOutcome.fail msg :: rest)).1.head? = some (none, true) ∧
    ∀ p ∈ (run_calls none (DriverOutcome.fail msg :: rest)).1.tail,
      p = (none, false) := by
  have hrun : run_calls none (DriverOutcome.fail msg :: rest) =
      ((none, true) :: rest.map (fun _ => (none, false)), some none) := by
    simp [run_calls, get_driver_cached, get_driver_body, run_calls_cached]
  rw [hrun]
  refine ⟨rfl, ?_⟩
  intro p hp
  simp only [List.tail_cons, List.mem_map] at hp
  obtain ⟨_, _, h⟩ := hp
  exact h.symm

/-- C5 amended-claim witness at a concrete run. -/
theorem C5_amended_cached_failure_witness :
    ((none, false) ∈
      (run_calls none [DriverOutcome.fail (chars "boom"), DriverOutcome.ok 7]).1.tail) ∧
    ((none, false) : Option Nat × Bool) = (none, false) :=
  ⟨by decide,
   (C5_amended_cached_failure (chars "boom") [DriverOutcome.ok 7]).2 _ (by decide)⟩

/-- C6: the provider creates a handle on its first invocation and every
subsequent invocation in the same process returns that same handle from the
cache without creating a new one (attempted flag `false`). -/
theorem C6_driver_memoized (h : Nat) (rest : List DriverOutcome) :
    (run_calls none (DriverOutcome.ok h :: rest)).1.head? = some (some h, true) ∧
    ∀ p ∈ (run_calls none (DriverOutcome.ok h :: rest)).1.tail,
      p = (some h, false) := by
  have hrun : run_calls none (DriverOutcome.ok h :: rest) =
      ((some h, true) :: rest.map (fun _ => (some h, false)), some (some h)) := by
    simp [run_calls, get_driver_cached, get_driver_body, run_calls_cached]
  rw [hrun]
  refine ⟨rfl, ?_⟩
  intro p hp
  simp only [List.tail_cons, List.mem_map] at hp
  obtain ⟨_, _, h'⟩ := hp
  exact h'.symm

/-- C6 witness at a concrete run: the second and third invocations return
the handle created by the first, without creating a new one. -/
theorem C6_driver_memoized_witness :
    ((some 1, false) ∈
      (run_calls none [DriverOutcome.ok 1, DriverOutcome.fail (chars "x"),
        DriverOutcome.ok 2]).1.tail) ∧
    ((some 1, false) : Option Nat × Bool) = (some 1, false) :=
  ⟨by decide,
   (C6_driver_memoized 1 [DriverOutcome.fail (chars "x"), DriverOutcome.ok 2]).2 _
     (by decide)⟩

theorem findTitle_eq_titles_head : (l : NodeList) → findTitleL l = (titlesL l).head?
  | .nil => rfl
  | .cons (.text _) ns => by
      simpa [findTitleL, titlesL] using findTitle_eq_titles_head ns
  | .cons (.elem t cs) ns => by
      by_cases h : t == "title"
      · simp [findTitleL, titlesL, h]
      · have h1 := findTitle_eq_titles_head cs
        have h2 := findTitle_eq_titles_head ns
        simp only [findTitleL, titlesL, h, if_neg, Bool.false_eq_true,
          List.nil_append, List.head?_append, h1, h2]
        cases (titlesL cs).head? <;> simp [Option.or]

/-- C1: whenever the parsed markup contains a `<title>` element, the
extracted title is the trimmed text of the first such element in document
order; when it contains none, the extracted title is exactly
`"No title found"`. -/
theorem C1_title_extraction (src : List Char) (dom : NodeList) :
    (∀ n, (titlesL dom).head? = some n →
      (scrape_website (.ok src dom)).title = strip (getText n)) ∧
    (titlesL dom = [] →
      (scrape_website (.ok src dom)).title = noTitle) := by
  constructor
  · intro n hn
    simp [scrape_website, findTitle_eq_titles_head, hn]
  · intro h
    simp [scrape_website, findTitle_eq_titles_head, h]

/-- C1 witness: on the demo page the extracted title is the trimmed text of
its (first) `<title>` element; on a title-free page it is the sentinel. -/
theorem C1_title_extraction_witness :
    ((titlesL demoDom).head? =
        some (Node.elem "title" (.cons (.text (chars " Demo ")) .nil)) ∧
      (scrape_website (.ok demoSrc demoDom)).title =
        strip (getText (Node.elem "title" (.cons (.text (chars " Demo ")) .nil)))) ∧
    (titlesL (.cons (.elem "p" .nil) .nil) = [] ∧
      (scrape_website (.ok [] (.cons (.elem "p" .nil) .nil))).title = noTitle) :=
  ⟨⟨rfl, (C1_title_extraction demoSrc demoDom).1 _ rfl⟩,
   ⟨rfl, (C1_title_extraction [] _).2 rfl⟩⟩

theorem splitTwoSpace_ne_nil : ∀ (l : List Char), splitTwoSpace l ≠ [] := by
  intro l
  induction l using splitTwoSpace.induct <;> simp_all [splitTwoSpace]
  split <;> simp

theorem mem_lstrip {c : Char} {s : List Char} (h : c ∈ lstrip s) : c ∈ s :=
  (List.dropWhile_sublist _).subset h

theorem mem_rstrip {c : Char} {s : List Char} (h : c ∈ rstrip s) : c ∈ s := by
  rw [rstrip, List.mem_reverse] at h
  exact List.mem_reverse.mp ((List.dropWhile_sublist _).subset h)

theorem mem_strip {c : Char} {s : List Char} (h : c ∈ strip s) : c ∈ s :=
  mem_lstrip (mem_rstrip h)

theorem mem_splitTwoSpace {c : Char} :
    ∀ (l : List Char), ∀ p ∈ splitTwoSpace l, c ∈ p → c ∈ l := by
  intro l
  induction l using splitTwoSpace.induct with
  | case1 =>
    intro p hp hc
    simp [splitTwoSpace] at hp
    simp [hp] at hc
  | case2 e =>
    intro p hp hc
    simp [splitTwoSpace] at hp
    simpa [hp] using hc
  | case3 a b r h ih =>
    intro p hp hc
    rw [splitTwoSpace, if_pos h, List.mem_cons] at hp
    rcases hp with rfl | hp
    · simp at hc
    · simp [ih p hp hc]
  | case4 a b r h hnil ih =>
    exact absurd hnil (splitTwoSpace_ne_nil _)
  | case5 a b r h h0 t heq ih =>
    intro p hp hc
    rw [splitTwoSpace, if_neg (by simpa using h), heq, List.mem_cons] at hp
    rcases hp with rfl | hp
    · rw [List.mem_cons] at hc
      rcases hc with rfl | hc
      · simp
      · have := ih h0 (by simp [heq]) hc
        simpa using Or.inr this
    · have := ih p (by simp [heq, hp]) hc
      simpa using Or.inr this
theorem slGo_nil (acc : List Char) : splitlinesGo acc [] = [acc.reverse] := rfl

theorem slGo_break_last (acc : List Char) {c : Char} (h : isBreak c = true) :
    splitlinesGo acc [c] = [acc.reverse] := by
  rw [splitlinesGo.eq_2, if_pos h]

theorem slGo_crlf_last (acc : List Char) :
    splitlinesGo acc ['\r', '\n'] = [acc.reverse] := by
  rw [splitlinesGo.eq_3]
  rw [if_pos (show isBreak '\r' = true by decide)]
  rw [if_pos (by decide)]

theorem slGo_crlf (acc : List Char) (e : Char) (s : List Char) :
    splitlinesGo acc ('\r' :: '\n' :: e :: s) =
      acc.reverse :: splitlinesGo [] (e :: s) := by
  rw [splitlinesGo.eq_4]
  rw [if_pos (show isBreak '\r' = true by decide)]
  rw [if_pos (by decide)]

theorem slGo_break (acc : List Char) {c d : Char} (s : List Char)
    (h : isBreak c = true) (h2 : (decide (c = '\r') && decide (d = '\n')) = false) :
    splitlinesGo acc (c :: d :: s) = acc.reverse :: splitlinesGo [] (d :: s) := by
  cases s with
  | nil =>
    rw [splitlinesGo.eq_3, if_pos h, if_neg (by simp [h2])]
  | cons e s' =>
    rw [splitlinesGo.eq_4, if_pos h, if_neg (by simp [h2])]

theorem slGo_cons (acc : List Char) {c : Char} (s : List Char)
    (h : isBreak c = false) :
    splitlinesGo acc (c :: s) = splitlinesGo (c :: acc) s := by
  cases s with
  | nil => rw [splitlinesGo.eq_2, if_neg (by simp [h])]
  | cons d s' =>
    cases s' with
    | nil => rw [splitlinesGo.eq_3, if_neg (by simp [h])]
    | cons e s'' => rw [splitlinesGo.eq_4, if_neg (by simp [h])]

theorem mem_splitlinesGo {c : Char} :
    ∀ (acc s : List Char), ∀ line ∈ splitlinesGo acc s, c ∈ line → c ∈ acc ∨ c ∈ s := by
  intro acc s
  induction acc, s using splitlinesGo.induct with
  | case1 acc =>
    intro line hl hc
    rw [slGo_nil, List.mem_singleton] at hl
    exact Or.inl (by simpa [hl] using hc)
  | case2 acc e he =>
    intro line hl hc
    rw [slGo_break_last acc he, List.mem_singleton] at hl
    exact Or.inl (by simpa [hl] using hc)
  | case3 acc e he d s'' hcr ih =>
    intro line hl hc
    obtain ⟨rfl, rfl⟩ : e = '\r' ∧ d = '\n' := by simpa using hcr
    cases s'' with
    | nil =>
      rw [slGo_crlf_last, List.mem_singleton] at hl
      exact Or.inl (by simpa [hl] using hc)
    | cons e2 s3 =>
      rw [slGo_crlf, List.mem_cons] at hl
      rcases hl with rfl | hl
      · exact Or.inl (by simpa using hc)
      · rcases ih line hl hc with h | h
        · simp at h
        · rw [List.mem_cons] at h
          exact Or.inr (by simp [List.mem_cons]; tauto)
  | case4 acc e he d s'' hcr ih =>
    intro line hl hc
    rw [slGo_break acc s'' he (by simpa using hcr), List.mem_cons] at hl
    rcases hl with rfl | hl
    · exact Or.inl (by simpa using hc)
    · rcases ih line hl hc with h | h
      · simp at h
      · exact Or.inr (by simp [List.mem_cons] at h ⊢; tauto)
  | case5 acc e s'' he ih =>
    intro line hl hc
    rw [slGo_cons acc s'' (by simpa using he)] at hl
    rcases ih line hl hc with h | h
    · rw [List.mem_cons] at h
      rcases h with rfl | h
      · exact Or.inr (by simp)
      · exact Or.inl h
    · exact Or.inr (by simp [h])

theorem noBreak_splitlinesGo :
    ∀ (acc s : List Char), (∀ x ∈ acc, isBreak x = false) →
      ∀ line ∈ splitlinesGo acc s, ∀ x ∈ line, isBreak x = false := by
  intro acc s
  induction acc, s using splitlinesGo.induct with
  | case1 acc =>
    intro hacc line hl x hx
    rw [slGo_nil, List.mem_singleton] at hl
    exact hacc x (by simpa [hl] using hx)
  | case2 acc e he =>
    intro hacc line hl x hx
    rw [slGo_break_last acc he, List.mem_singleton] at hl
    exact hacc x (by simpa [hl] using hx)
  | case3 acc e he d s'' hcr ih =>
    intro hacc line hl x hx
    obtain ⟨rfl, rfl⟩ : e = '\r' ∧ d = '\n' := by simpa using hcr
    cases s'' with
    | nil =>
      rw [slGo_crlf_last, List.mem_singleton] at hl
      exact hacc x (by simpa [hl] using hx)
    | cons e2 s3 =>
      rw [slGo_crlf, List.mem_cons] at hl
      rcases hl with rfl | hl
      · exact hacc x (by simpa using hx)
      · exact ih (by simp) line hl x hx
  | case4 acc e he d s'' hcr ih =>
    intro hacc line hl x hx
    rw [slGo_break acc s'' he (by simpa using hcr), List.mem_cons] at hl
    rcases hl with rfl | hl
    · exact hacc x (by simpa using hx)
    · exact ih (by simp) line hl x hx
  | case5 acc e s'' he ih =>
    intro hacc line hl x hx
    rw [slGo_cons acc s'' (by simpa using he)] at hl
    refine ih ?_ line hl x hx
    intro y hy
    rw [List.mem_cons] at hy
    rcases hy with rfl | hy
    · simpa using he
    · exact hacc y hy

theorem mem_splitlines {c : Char} {t : List Char} :
    ∀ line ∈ splitlines t, c ∈ line → c ∈ t := by
  intro line hl hc
  cases t with
  | nil => simp [splitlines] at hl
  | cons a s =>
    rcases mem_splitlinesGo [] (a :: s) line hl hc with h | h
    · simp at h
    · exact h

theorem noBreak_splitlines {t : List Char} :
    ∀ line ∈ splitlines t, ∀ x ∈ line, isBreak x = false := by
  intro line hl
  cases t with
  | nil => simp [splitlines] at hl
  | cons a s => exact noBreak_splitlinesGo [] (a :: s) (by simp) line hl

theorem mem_joinNL {c : Char} :
    ∀ (fs : List (List Char)), c ∈ joinNL fs → c = '\n' ∨ ∃ f ∈ fs, c ∈ f := by
  intro fs
  induction fs using joinNL.induct with
  | case1 => simp [joinNL]
  | case2 f =>
    intro h
    exact Or.inr ⟨f, by simp, by simpa [joinNL] using h⟩
  | case3 f fs hne ih =>
    intro h
    cases fs with
    | nil => exact absurd rfl hne
    | cons g fs' =>
      simp only [joinNL] at h
      rw [List.mem_append, List.mem_cons] at h
      rcases h with h | rfl | h
      · exact Or.inr ⟨f, by simp, h⟩
      · exact Or.inl rfl
      · rcases ih h with rfl | ⟨f', hf', hc'⟩
        · exact Or.inl rfl
        · refine Or.inr ⟨f', ?_, hc'⟩
          simp [List.mem_cons] at hf' ⊢
          tauto
theorem cleanChunks_props {t : List Char} :
    ∀ f ∈ cleanChunks t, f ≠ [] ∧ (∃ p, f = strip p) ∧
      (∀ c ∈ f, c ∈ t) ∧ (∀ c ∈ f, isBreak c = false) := by
  intro f hf
  rw [cleanChunks, List.mem_filter] at hf
  obtain ⟨hf, hne⟩ := hf
  rw [List.mem_map] at hf
  obtain ⟨p, hp, rfl⟩ := hf
  rw [List.mem_flatMap] at hp
  obtain ⟨l', hl', hpl⟩ := hp
  rw [List.mem_map] at hl'
  obtain ⟨line, hline, rfl⟩ := hl'
  refine ⟨by simpa using hne, ⟨p, rfl⟩, ?_, ?_⟩
  · intro c hc
    exact mem_splitlines line hline
      (mem_strip (mem_splitTwoSpace _ p hpl (mem_strip hc)))
  · intro c hc
    exact noBreak_splitlines line hline c
      (mem_strip (mem_splitTwoSpace _ p hpl (mem_strip hc)))

theorem mem_clean_code {c : Char} {t : List Char} (h : c ∈ clean_code t) :
    c = '\n' ∨ c ∈ t := by
  rcases mem_joinNL _ h with rfl | ⟨f, hf, hc⟩
  · exact Or.inl rfl
  · exact Or.inr ((cleanChunks_props f hf).2.2.1 c hc)

theorem lstrip_head {s : List Char} {a : Char} {t : List Char}
    (h : lstrip s = a :: t) : isPySpace a = false := by
  induction s with
  | nil => simp [lstrip] at h
  | cons b s' ih =>
    rw [lstrip, List.dropWhile_cons] at h
    split at h
    · exact ih h
    · next hb =>
      obtain ⟨rfl, -⟩ := List.cons.inj h
      simpa using hb

theorem rstrip_isPrefix (m : List Char) : rstrip m <+: m := by
  rw [rstrip]
  have := List.reverse_prefix.mpr (List.dropWhile_suffix (l := m.reverse) isPySpace)
  simpa using this

theorem strip_has_nonspace {s : List Char} (h : strip s ≠ []) :
    ∃ c ∈ strip s, isPySpace c = false := by
  obtain ⟨a, t, hat⟩ : ∃ a t, strip s = a :: t := by
    cases hs : strip s with
    | nil => exact absurd hs h
    | cons a t => exact ⟨a, t, rfl⟩
  obtain ⟨k, hk⟩ := rstrip_isPrefix (lstrip s)
  rw [show rstrip (lstrip s) = strip s from rfl, hat] at hk
  have : lstrip s = a :: (t ++ k) := by rw [← hk]; simp
  exact ⟨a, by simp [hat], lstrip_head this⟩

theorem splitlinesGo_noBreak (acc : List Char) :
    ∀ (f : List Char), (∀ c ∈ f, isBreak c = false) →
      splitlinesGo acc f = [acc.reverse ++ f] := by
  intro f
  induction f generalizing acc with
  | nil => intro _; simp [slGo_nil]
  | cons a f' ih =>
    intro hf
    rw [slGo_cons acc f' (hf a (by simp))]
    rw [ih (a :: acc) (fun c hc => hf c (by simp [hc]))]
    simp

theorem splitlinesGo_append_nl (acc : List Char) :
    ∀ (f m : List Char), (∀ c ∈ f, isBreak c = false) → m ≠ [] →
      splitlinesGo acc (f ++ '\n' :: m) = (acc.reverse ++ f) :: splitlinesGo [] m := by
  intro f
  induction f generalizing acc with
  | nil =>
    intro m _ hm
    cases m with
    | nil => exact absurd rfl hm
    | cons d s' =>
      have h2 : (decide (('\n' : Char) = '\r') && decide (d = '\n')) = false := by
        simp
      rw [List.nil_append, slGo_break acc s' (by decide) h2]
      simp
  | cons a f' ih =>
    intro m hf hm
    rw [List.cons_append, slGo_cons acc _ (hf a (by simp))]
    rw [ih (a :: acc) m (fun c hc => hf c (by simp [hc])) hm]
    simp

theorem splitlines_expand {x : List Char} (h : x ≠ []) :
    splitlines x = splitlinesGo [] x := by
  cases x with
  | nil => exact absurd rfl h
  | cons a s => rfl

theorem joinNL_ne_nil {g : List Char} {fs : List (List Char)} (hg : g ≠ []) :
    joinNL (g :: fs) ≠ [] := by
  cases fs with
  | nil => simpa [joinNL] using hg
  | cons f fs' =>
    simp only [joinNL]
    intro hb
    rw [List.append_eq_nil] at hb
    exact hg hb.1

theorem splitlines_joinNL :
    ∀ (fs : List (List Char)), fs ≠ [] → (∀ f ∈ fs, f ≠ []) →
      (∀ f ∈ fs, ∀ c ∈ f, isBreak c = false) →
      splitlines (joinNL fs) = fs := by
  intro fs
  induction fs using joinNL.induct with
  | case1 => intro h _ _; exact absurd rfl h
  | case2 f =>
    intro _ hne hnb
    have hf : f ≠ [] := hne f (by simp)
    rw [joinNL, splitlines_expand hf,
      splitlinesGo_noBreak [] f (hnb f (by simp))]
    simp
  | case3 f fs hfs ih =>
    intro _ hne hnb
    cases fs with
    | nil => exact absurd rfl hfs
    | cons g fs' =>
      have hm : joinNL (g :: fs') ≠ [] := joinNL_ne_nil (hne g (by simp))
      have hx : f ++ '\n' :: joinNL (g :: fs') ≠ [] := by simp
      rw [joinNL, splitlines_expand hx,
        splitlinesGo_append_nl [] f _ (hnb f (by simp)) hm]
      rw [← splitlines_expand hm]
      have h1 : (g :: fs' : List (List Char)) ≠ [] := List.cons_ne_nil g fs'
      have h2 : ∀ x ∈ g :: fs', x ≠ [] := fun x hx' => hne x (List.mem_cons_of_mem f hx')
      have h3 : ∀ x ∈ g :: fs', ∀ c ∈ x, isBreak c = false :=
        fun x hx' => hnb x (List.mem_cons_of_mem f hx')
      rw [ih h1 h2 h3]
      · simp
      · exact fun h => List.noConfusion h
/-- C2: a character that occurs in the text of some script or style subtree
and nowhere in the text kept after script/style removal (and is not the
newline separator the cleaner itself inserts) never appears in the
`clean_text` field produced by the pipeline. -/
theorem C2_no_script_style_text (src : List Char) (dom : NodeList) (c : Char)
    (hss : c ∈ ssTextL dom)
    (hkept : c ∉ getText.getTextL (stripScriptsL dom)) (hnl : c ≠ '\n') :
    c ∉ (scrape_website (.ok src dom)).clean_text := by
  intro hmem
  have h : c ∈ clean_code (getText.getTextL (stripScriptsL dom)) := hmem
  rcases mem_clean_code h with rfl | h'
  · exact hnl rfl
  · exact hkept h'

/-- C2 witness: on the demo page the script character `=` occurs only in the
script subtree and is absent from `clean_text`. -/
theorem C2_no_script_style_text_witness :
    ('=' ∈ ssTextL demoDom ∧
      '=' ∉ getText.getTextL (stripScriptsL demoDom) ∧ '=' ≠ '\n') ∧
    '=' ∉ (scrape_website (.ok demoSrc demoDom)).clean_text :=
  ⟨⟨by decide, by decide, by decide⟩,
   C2_no_script_style_text demoSrc demoDom '=' (by decide) (by decide) (by decide)⟩

/-- C7: every line of the `clean_text` produced by the pipeline contains at
least one non-whitespace character. -/
theorem C7_no_blank_lines (src : List Char) (dom : NodeList) :
    ∀ line ∈ splitlines ((scrape_website (.ok src dom)).clean_text),
      ∃ c ∈ line, isPySpace c = false := by
  intro line hl
  have hl' : line ∈ splitlines
      (clean_code (getText.getTextL (stripScriptsL dom))) := hl
  rw [clean_code] at hl'
  by_cases hck : cleanChunks (getText.getTextL (stripScriptsL dom)) = []
  · rw [hck] at hl'
    simp [joinNL, splitlines] at hl'
  · rw [splitlines_joinNL _ hck
      (fun f hf => (cleanChunks_props f hf).1)
      (fun f hf => (cleanChunks_props f hf).2.2.2)] at hl'
    obtain ⟨hne, ⟨p, hp⟩, -, -⟩ := cleanChunks_props line hl'
    rw [hp] at hne ⊢
    exact strip_has_nonspace hne

/-- C7 witness: a line of the demo page's cleaned text, with its
non-whitespace character. -/
theorem C7_no_blank_lines_witness :
    (chars "Demo Hello" ∈
      splitlines ((scrape_website (.ok demoSrc demoDom)).clean_text)) ∧
    ∃ c ∈ chars "Demo Hello", isPySpace c = false :=
  ⟨by decide, C7_no_blank_lines demoSrc demoDom (chars "Demo Hello") (by decide)⟩

theorem st_double {c d : Char} (r : List Char)
    (h : (decide (c = ' ') && decide (d = ' ')) = true) :
    splitTwoSpace (c :: d :: r) = [] :: splitTwoSpace r := by
  rw [splitTwoSpace, if_pos h]

theorem st_cons {c d : Char} {r h0 : List Char} {t : List (List Char)}
    (h : (decide (c = ' ') && decide (d = ' ')) = false)
    (heq : splitTwoSpace (d :: r) = h0 :: t) :
    splitTwoSpace (c :: d :: r) = (c :: h0) :: t := by
  rw [splitTwoSpace, if_neg (by simp_all), heq]

theorem strip_cons_ws {c : Char} (h : isPySpace c = true) (s : List Char) :
    strip (c :: s) = strip s := by
  unfold strip lstrip
  rw [List.dropWhile_cons, if_pos (by simp [h])]

theorem strip_nil : strip [] = [] := rfl

theorem splitTwoSpace_dest (l : List Char) :
    ∃ h0 t, splitTwoSpace l = h0 :: t := by
  cases hst : splitTwoSpace l with
  | nil => exact absurd hst (splitTwoSpace_ne_nil _)
  | cons a b => exact ⟨a, b, rfl⟩

theorem lineChunks_cons_ws :
    ∀ (l : List Char) {c : Char}, isPySpace c = true →
      lineChunks (c :: l) = lineChunks l := by
  intro l
  induction l with
  | nil =>
    intro c hc
    simp [lineChunks, splitTwoSpace, strip_cons_ws hc, strip_nil]
  | cons d l' ih =>
    intro c hc
    by_cases hcd : (decide (c = ' ') && decide (d = ' ')) = true
    · rw [Bool.and_eq_true, decide_eq_true_eq, decide_eq_true_eq] at hcd
      have hd : isPySpace d = true := by simp [isPySpace, hcd.2]
      rw [lineChunks, st_double l' (by simp [hcd.1, hcd.2])]
      rw [ih hd]
      simp [lineChunks, strip_nil]
    · obtain ⟨h0, t, heq⟩ := splitTwoSpace_dest (d :: l')
      rw [lineChunks, st_cons (by simpa using hcd) heq]
      rw [lineChunks, heq]
      simp [strip_cons_ws hc]

theorem lineChunks_lstrip : ∀ (l : List Char), lineChunks (lstrip l) = lineChunks l := by
  intro l
  induction l with
  | nil => rfl
  | cons c l' ih =>
    by_cases hc : isPySpace c = true
    · rw [lstrip, List.dropWhile_cons, if_pos (by simp [hc])]
      rw [show List.dropWhile isPySpace l' = lstrip l' from rfl, ih,
        lineChunks_cons_ws l' hc]
    · rw [lstrip, List.dropWhile_cons,
        if_neg (by simpa using hc)]

theorem strip_allWS {m : List Char} (h : ∀ c ∈ m, isPySpace c = true) :
    strip m = [] := by
  have hl : lstrip m = [] := by
    rw [lstrip, List.dropWhile_eq_nil_iff]
    exact fun a ha => h a ha
  rw [strip, hl]
  rfl

theorem lineChunks_allWS :
    ∀ (w : List Char), (∀ c ∈ w, isPySpace c = true) → lineChunks w = [] := by
  intro w
  induction w with
  | nil => intro _; rfl
  | cons c w' ih =>
    intro h
    rw [lineChunks_cons_ws w' (h c (by simp))]
    exact ih fun a ha => h a (by simp [ha])

theorem rstrip_append_ws {w : List Char} (hw : ∀ c ∈ w, isPySpace c = true)
    (m : List Char) : rstrip (m ++ w) = rstrip m := by
  have hrev : List.dropWhile isPySpace w.reverse = [] :=
    List.dropWhile_eq_nil_iff.mpr fun x hx => hw x (List.mem_reverse.mp hx)
  rw [rstrip, List.reverse_append, List.dropWhile_append, hrev]
  simp [rstrip]

theorem strip_append_ws {w : List Char} (hw : ∀ c ∈ w, isPySpace c = true)
    (f : List Char) : strip (f ++ w) = strip f := by
  cases hlf : lstrip f with
  | nil =>
    have hfws : ∀ c ∈ f, isPySpace c = true := by
      rw [lstrip, List.dropWhile_eq_nil_iff] at hlf
      exact hlf
    rw [strip_allWS hfws, strip_allWS]
    intro c hc
    rw [List.mem_append] at hc
    rcases hc with hc | hc
    · exact hfws c hc
    · exact hw c hc
  | cons a t =>
    have h1 : lstrip (f ++ w) = lstrip f ++ w := by
      rw [lstrip, List.dropWhile_append,
        show List.dropWhile isPySpace f = lstrip f from rfl, hlf]
      simp [hlf]
    rw [strip, h1, rstrip_append_ws hw]
    rfl

theorem splitTwoSpace_append_ws :
    ∀ (k : List Char), ∀ (w : List Char), (∀ c ∈ w, isPySpace c = true) →
      (∀ c, k.getLast? = some c → isPySpace c = false) → k ≠ [] →
      ∃ init last ext rest,
        splitTwoSpace k = init ++ [last] ∧
        splitTwoSpace (k ++ w) = init ++ (last ++ ext) :: rest ∧
        (∀ c ∈ ext, isPySpace c = true) ∧
        (∀ f ∈ rest, ∀ c ∈ f, isPySpace c = true) := by
  intro k
  induction k using splitTwoSpace.induct with
  | case1 => intro w _ _ hk; exact absurd rfl hk
  | case2 e =>
    intro w hw hlast _
    have he : isPySpace e = false := hlast e (List.getLast?_singleton e)
    cases w with
    | nil =>
      exact ⟨[], [e], [], [], by simp [splitTwoSpace], by simp [splitTwoSpace],
        by simp, by simp⟩
    | cons d w' =>
      obtain ⟨h0, t, heq⟩ := splitTwoSpace_dest (d :: w')
      have hcd : (decide (e = ' ') && decide (d = ' ')) = false := by
        have hne : e ≠ ' ' := by
          intro h; rw [h] at he; simp [isPySpace] at he
        simp [hne]
      refine ⟨[], [e], h0, t, by simp [splitTwoSpace], ?_, ?_, ?_⟩
      · rw [List.singleton_append, st_cons hcd heq]
        simp
      · intro c hc
        exact hw c (mem_splitTwoSpace (d :: w') h0 (by simp [heq]) hc)
      · intro f hf c hc
        exact hw c (mem_splitTwoSpace (d :: w') f (by simp [heq, hf]) hc)
  | case3 a b r habd ih =>
    intro w hw hlast _
    have hb : b = ' ' := by
      rw [Bool.and_eq_true, decide_eq_true_eq, decide_eq_true_eq] at habd
      exact habd.2
    have hr : r ≠ [] := by
      intro h
      subst h
      have hbl : isPySpace b = false := by
        apply hlast
        rw [List.getLast?_cons_cons, List.getLast?_singleton]
      rw [hb] at hbl
      simp [isPySpace] at hbl
    have hlast' : ∀ c, r.getLast? = some c → isPySpace c = false := by
      intro c hc
      apply hlast
      rw [List.getLast?_cons_cons]
      cases r with
      | nil => exact absurd rfl hr
      | cons x xs => rw [List.getLast?_cons_cons]; exact hc
    obtain ⟨init, last, ext, rest, h1, h2, h3, h4⟩ := ih w hw hlast' hr
    refine ⟨[] :: init, last, ext, rest, ?_, ?_, h3, h4⟩
    · rw [st_double r habd, h1]
      rfl
    · rw [List.cons_append, List.cons_append, st_double (r ++ w) habd, h2]
      rfl
  | case4 a b r habd hnil ih => exact absurd hnil (splitTwoSpace_ne_nil _)
  | case5 a b r habd h0 t heq ih =>
    intro w hw hlast _
    have habd' : (decide (a = ' ') && decide (b = ' ')) = false := by
      simpa using habd
    have hlast' : ∀ c, (b :: r).getLast? = some c → isPySpace c = false := by
      intro c hc
      apply hlast
      rw [List.getLast?_cons_cons]
      exact hc
    obtain ⟨init', last', ext, rest, h1, h2, h3, h4⟩ :=
      ih w hw hlast' (List.cons_ne_nil b r)
    rw [List.cons_append] at h2
    cases init' with
    | nil =>
      rw [List.nil_append] at h1 h2
      obtain ⟨rfl, rfl⟩ : h0 = last' ∧ t = [] := by
        rw [h1] at heq
        exact List.cons.inj heq.symm
      refine ⟨[], a :: h0, ext, rest, ?_, ?_, h3, h4⟩
      · rw [st_cons habd' heq]
        rfl
      · rw [List.cons_append, List.cons_append, st_cons habd' h2]
        rfl
    | cons i0 i' =>
      rw [List.cons_append] at h1 h2
      obtain ⟨rfl, rfl⟩ : h0 = i0 ∧ t = i' ++ [last'] := by
        rw [h1] at heq
        exact List.cons.inj heq.symm
      refine ⟨(a :: h0) :: i', last', ext, rest, ?_, ?_, h3, h4⟩
      · rw [st_cons habd' heq]
        rfl
      · rw [List.cons_append, List.cons_append, st_cons habd' h2]
        rfl

theorem lineChunks_restWS {rest : List (List Char)}
    (h : ∀ f ∈ rest, ∀ c ∈ f, isPySpace c = true) :
    (rest.map strip).filter (fun f => !f.isEmpty) = [] := by
  rw [List.filter_eq_nil_iff]
  intro a ha
  rw [List.mem_map] at ha
  obtain ⟨f, hf, rfl⟩ := ha
  rw [strip_allWS (h f hf)]
  simp

theorem lineChunks_append_ws {k w : List Char}
    (hw : ∀ c ∈ w, isPySpace c = true)
    (hlast : ∀ c, k.getLast? = some c → isPySpace c = false) :
    lineChunks (k ++ w) = lineChunks k := by
  cases hk : k with
  | nil => exact lineChunks_allWS w hw
  | cons a k' =>
    obtain ⟨init, last, ext, rest, h1, h2, h3, h4⟩ :=
      splitTwoSpace_append_ws (a :: k') w hw (hk ▸ hlast) (List.cons_ne_nil a k')
    rw [lineChunks, lineChunks, h1, h2]
    rw [List.map_append, List.map_append, List.filter_append, List.filter_append]
    congr 1
    rw [List.map_cons, List.map_singleton, List.filter_cons, List.filter_cons,
      strip_append_ws h3 last,
      show (rest.map strip).filter (fun f => !f.isEmpty) = [] from
        lineChunks_restWS h4]
    simp

theorem head_dropWhile_not {p : Char → Bool} :
    ∀ (l : List Char) {a : Char} {t : List Char},
      List.dropWhile p l = a :: t → p a = false := by
  intro l
  induction l with
  | nil => intro a t h; simp at h
  | cons b l' ih =>
    intro a t h
    rw [List.dropWhile_cons] at h
    split at h
    · exact ih h
    · next hb =>
      obtain ⟨rfl, -⟩ := List.cons.inj h
      simpa using hb

theorem lineChunks_strip (l : List Char) : lineChunks (strip l) = lineChunks l := by
  rw [← lineChunks_lstrip l]
  rw [strip]
  set m := lstrip l with hm
  have hdecomp : m = rstrip m ++ (m.reverse.takeWhile isPySpace).reverse := by
    rw [rstrip]
    rw [← List.reverse_append, List.takeWhile_append_dropWhile, List.reverse_reverse]
  have hw : ∀ c ∈ (m.reverse.takeWhile isPySpace).reverse, isPySpace c = true := by
    intro c hc
    exact List.mem_takeWhile_imp (List.mem_reverse.mp hc)
  have hlast : ∀ c, (rstrip m).getLast? = some c → isPySpace c = false := by
    intro c hc
    rw [rstrip, List.getLast?_reverse] at hc
    cases hd : List.dropWhile isPySpace m.reverse with
    | nil => rw [hd] at hc; simp at hc
    | cons a t =>
      rw [hd] at hc
      simp only [List.head?_cons, Option.some.injEq] at hc
      rw [← hc]
      exact head_dropWhile_not m.reverse hd
  conv_rhs => rw [hdecomp]
  rw [lineChunks_append_ws hw hlast]

theorem cleanChunks_eq_spec (t : List Char) : cleanChunks t = cleanChunksSpec t := by
  rw [cleanChunks, cleanChunksSpec,
    List.map_flatMap, List.map_flatMap,
    List.filter_flatMap, List.filter_flatMap,
    List.flatMap_map]
  exact List.flatMap_congr fun line _ => lineChunks_strip line

theorem clean_code_eq_spec (t : List Char) : clean_code t = clean_spec t := by
  rw [clean_code, clean_spec, cleanChunks_eq_spec]

/-- C3: for every input, the `clean_text` field equals the result of the
procedure the specification describes, applied to the text extracted after
script/style removal: split into lines, split each line on two consecutive
spaces, trim each fragment, discard empty fragments, and join the survivors
with newlines.  (The code additionally strips each line before splitting;
this never changes the surviving fragments.) -/
theorem C3_clean_text_spec (src : List Char) (dom : NodeList) :
    (scrape_website (.ok src dom)).clean_text =
      clean_spec (getText.getTextL (stripScriptsL dom)) :=
  clean_code_eq_spec _
